import Mathlib

/-!
Shallow embedding of the `lrusty-cache` repository (`src/lib.rs`): an LRU
cache built from a hash set (`kv_storage`) and an intrusive doubly-linked
list (`recency_queue`), both holding reference-counted handles (`Rc`)
to the same nodes.

Modelling choices, justified against the source:

* Each `Rc<Node<K, V>>` is modelled by its payload pair `(K, V)`.  The hash
  set and the linked list are both modelled as `List (K × V)`; the hash set
  iteration order is unspecified in Rust, so the model fixes one concrete
  order (new entries are consed at the front), which is a legitimate
  refinement of the unspecified order.
* Pointer-based removal from the intrusive list (`cursor_mut_from_ptr` in
  `drop_from_queue`) removes the node the handle points at; since both
  containers share nodes and keys are unique in every reachable state, this
  is modelled as erasing the first entry whose key matches.
* `HashSet::get`/`remove` look entries up by key (via the `Borrow<K>` impl
  on `RefNode`); modelled with `List.find?` / `List.eraseP` on the key.
* `NonZeroU32` capacities are modelled as `Nat` together with positivity
  hypotheses; `NonZeroU32::new` is `nonZeroU32New` (the arguments of
  interest are small, so 32-bit wraparound is never exercised).
* `Rc::strong_count` of a node equals the number of containers currently
  holding a clone of its handle plus the number of live local handles;
  `shareCount` computes the container part (so a strong count of 2 while
  both containers hold the node corresponds to `shareCount = 2`, and a
  strong count of 1 on a locally held handle corresponds to
  `shareCount = 0`).
* Branches that are only reachable when one of the source's `assert!`s has
  already fired (e.g. popping from an empty queue in `resize`) are made
  total by returning the unchanged state; the theorems show those branches
  are never taken from reachable states.
-/

/-- Model of `NonZeroU32::new`: `None` exactly on zero. -/
def nonZeroU32New (n : Nat) : Option Nat :=
  if n = 0 then none else some n

/-- Model of `LRUCache<K, V>`: the hash set `kv_storage`, the recency list
`recency_queue` (front = least recently used, back = most recently used)
and the capacity `max_len` (a `NonZeroU32` in the source). -/
structure LRUCache (K V : Type) where
  kv_storage : List (K × V)
  recency_queue : List (K × V)
  max_len : Nat
deriving Repr, DecidableEq

namespace LRUCache

variable {K V : Type} [DecidableEq K]

/-- `len()`: the size of the hash set. -/
def len (c : LRUCache K V) : Nat :=
  c.kv_storage.length

/-- `with_max_len(max_len)`: empty containers, the given capacity
(the `HashSet::with_capacity` pre-reservation has no observable effect). -/
def with_max_len (n : Nat) : LRUCache K V :=
  { kv_storage := [], recency_queue := [], max_len := n }

/-- `Default::default()`: capacity `NonZeroU32::new(1).unwrap()`, empty
containers. -/
def defaultCache : LRUCache K V :=
  { kv_storage := [], recency_queue := [], max_len := (nonZeroU32New 1).getD 0 }

/-- `LRUCache::new()`: delegates to `Default::default()`. -/
def new : LRUCache K V :=
  defaultCache

/-- `drop_from_queue(entry)`: unlink the node with `entry`'s key from the
recency queue (the source removes it by pointer identity; keys are unique
in reachable states, so erasing by key removes the same node). -/
def drop_from_queue (c : LRUCache K V) (k : K) : LRUCache K V :=
  { c with recency_queue := c.recency_queue.eraseP (fun e => decide (e.1 = k)) }

/-- `get(&key)`: on a hit, unlink the node from the queue, push it to the
back, and return its value; on a miss return `None` with no effect. -/
def get (c : LRUCache K V) (k : K) : LRUCache K V × Option V :=
  match c.kv_storage.find? (fun e => decide (e.1 = k)) with
  | some entry =>
      let c1 := drop_from_queue c entry.1
      ({ c1 with recency_queue := c1.recency_queue ++ [entry] }, some entry.2)
  | none => (c, none)

/-- `drop_before_insertion(&key)`: on a key collision remove the old entry
from both containers and return it; else, when full, pop the queue front and
remove it from the set, returning `None`; else do nothing. -/
def drop_before_insertion (c : LRUCache K V) (k : K) :
    LRUCache K V × Option (K × V) :=
  match c.kv_storage.find? (fun e => decide (e.1 = k)) with
  | some to_remove =>
      let c1 := drop_from_queue c to_remove.1
      ({ c1 with
          kv_storage := c1.kv_storage.eraseP (fun e => decide (e.1 = to_remove.1)) },
        some to_remove)
  | none =>
      if c.len = c.max_len then
        match c.recency_queue with
        | to_remove :: rest =>
            ({ c with
                recency_queue := rest,
                kv_storage := c.kv_storage.eraseP (fun e => decide (e.1 = to_remove.1)) },
              none)
        | [] => (c, none)
      else (c, none)

/-- `push_entry(key, val)`: fresh node, inserted into the hash set and
pushed to the back of the recency queue. -/
def push_entry (c : LRUCache K V) (k : K) (v : V) : LRUCache K V :=
  { c with
      kv_storage := (k, v) :: c.kv_storage,
      recency_queue := c.recency_queue ++ [(k, v)] }

/-- `insert(key, val)`: `drop_before_insertion` then `push_entry`; the
removed collision entry (if any) is decomposed into a pair and returned. -/
def insert (c : LRUCache K V) (k : K) (v : V) :
    LRUCache K V × Option (K × V) :=
  let r := drop_before_insertion c k
  (push_entry r.1 k v, r.2)

/-- The body of `resize`'s eviction loop (`for _ in new_max_len..len`),
run `m` times: pop the queue front and remove the matching key from the
set, collecting the evicted pairs in eviction order. -/
def resizeLoop : Nat → LRUCache K V → LRUCache K V × List (K × V)
  | 0, c => (c, [])
  | m + 1, c =>
      match c.recency_queue with
      | [] => (c, [])
      | f :: rest =>
          let c1 : LRUCache K V :=
            { c with
                recency_queue := rest,
                kv_storage := c.kv_storage.eraseP (fun e => decide (e.1 = f.1)) }
          let r := resizeLoop m c1
          (r.1, f :: r.2)

/-- `resize(new_max_len)`: growing (`new_max_len >= max_len`) only updates
the capacity; shrinking on an empty set returns early (the source does not
update `max_len` on this path); otherwise the eviction loop runs
`len - new_max_len` times and the capacity is updated. -/
def resize (c : LRUCache K V) (n : Nat) : LRUCache K V × List (K × V) :=
  if c.max_len ≤ n then
    ({ c with max_len := n }, [])
  else if c.kv_storage.isEmpty then
    (c, [])
  else
    let r := resizeLoop (c.len - n) c
    ({ r.1 with max_len := n }, r.2)

/-- `iter()`: the hash set entries, as key-value pairs, in the set's
(unspecified) order; the recency queue is not consulted. -/
def iter (c : LRUCache K V) : List (K × V) :=
  c.kv_storage.map (fun e => (e.1, e.2))

/-- Number of container memberships of the key `k`'s node: the `Rc` strong
count of a node equals this plus the number of live local handles. -/
def shareCount (c : LRUCache K V) (k : K) : Nat :=
  c.kv_storage.countP (fun e => decide (e.1 = k)) +
    c.recency_queue.countP (fun e => decide (e.1 = k))

/-- Keys are pairwise distinct. -/
def KeysNodup (l : List (K × V)) : Prop :=
  (l.map Prod.fst).Nodup

/-- The cache invariant: both containers hold the same entries (as
multisets), keys are unique, the length is bounded by the capacity, and the
capacity is positive (it is a `NonZeroU32`). -/
def WF (c : LRUCache K V) : Prop :=
  c.recency_queue.Perm c.kv_storage ∧ KeysNodup c.recency_queue ∧
    c.kv_storage.length ≤ c.max_len ∧ 0 < c.max_len

instance instDecidableKeysNodup (l : List (K × V)) : Decidable (KeysNodup l) := by
  unfold KeysNodup; infer_instance

instance instDecidableWF [DecidableEq V] (c : LRUCache K V) : Decidable (WF c) := by
  unfold WF; infer_instance

/-- States reachable by the public constructors and operations
(`with_max_len` / `insert` / `get` / `resize`); `resize` and
`with_max_len` take `NonZeroU32` arguments, hence their positivity
side conditions. -/
inductive Reachable : LRUCache K V → Prop
  | with_max_len (n : Nat) (h : 0 < n) : Reachable (with_max_len n)
  | insert (c : LRUCache K V) (k : K) (v : V) :
      Reachable c → Reachable (LRUCache.insert c k v).1
  | get (c : LRUCache K V) (k : K) :
      Reachable c → Reachable (LRUCache.get c k).1
  | resize (c : LRUCache K V) (n : Nat) (h : 0 < n) :
      Reachable c → Reachable (LRUCache.resize c n).1

/-! Helper lemmas about lists of entries with pairwise-distinct keys. -/

theorem keysNodup_cons {e : K × V} {l : List (K × V)} :
    KeysNodup (e :: l) ↔ (∀ x ∈ l, ¬ x.1 = e.1) ∧ KeysNodup l := by
  simp only [KeysNodup, List.map_cons, List.nodup_cons, List.mem_map]
  constructor
  · rintro ⟨h1, h2⟩
    exact ⟨fun x hx hxe => h1 ⟨x, hx, hxe⟩, h2⟩
  · rintro ⟨h1, h2⟩
    refine ⟨fun hmem => ?_, h2⟩
    rcases hmem with ⟨x, hx, hxe⟩
    exact h1 x hx hxe

theorem keysNodup_of_perm {l1 l2 : List (K × V)} (hp : l1.Perm l2)
    (h : KeysNodup l1) : KeysNodup l2 :=
  (List.Perm.nodup_iff (hp.map Prod.fst)).mp h

theorem keysNodup_filter (p : K × V → Bool) {l : List (K × V)}
    (h : KeysNodup l) : KeysNodup (l.filter p) := by
  have hs : List.Sublist ((l.filter p).map Prod.fst) (l.map Prod.fst) :=
    (List.filter_sublist l).map _
  exact hs.nodup h

theorem keysNodup_append_singleton {l : List (K × V)} {e : K × V}
    (h : KeysNodup l) (hfresh : ∀ x ∈ l, ¬ x.1 = e.1) :
    KeysNodup (l ++ [e]) :=
  keysNodup_of_perm (List.perm_append_singleton e l).symm
    (keysNodup_cons.mpr ⟨hfresh, h⟩)

theorem eraseP_eq_filter_of_keysNodup {l : List (K × V)} (k : K)
    (h : KeysNodup l) :
    l.eraseP (fun e => decide (e.1 = k)) = l.filter (fun e => !decide (e.1 = k)) := by
  induction l with
  | nil => rfl
  | cons e es ih =>
      rcases keysNodup_cons.mp h with ⟨hfresh, htail⟩
      by_cases hek : e.1 = k
      · rw [List.eraseP_cons_of_pos (by simpa using hek),
          List.filter_cons_of_neg (by simp [hek])]
        symm
        rw [List.filter_eq_self]
        intro a ha
        simp only [Bool.not_eq_true', decide_eq_false_iff_not]
        exact fun hak => hfresh a ha (by rw [hak, hek])
      · rw [List.eraseP_cons_of_neg (by simpa using hek),
          List.filter_cons_of_pos (by simpa using hek), ih htail]

theorem perm_cons_filter_of_mem {l : List (K × V)} {e : K × V}
    (h : KeysNodup l) (hm : e ∈ l) :
    l.Perm (e :: l.filter (fun x => !decide (x.1 = e.1))) := by
  induction l with
  | nil => cases hm
  | cons a as ih =>
      rcases keysNodup_cons.mp h with ⟨hfresh, htail⟩
      rcases List.mem_cons.mp hm with rfl | hmem
      · rw [List.filter_cons_of_neg (by simp)]
        have hself : as.filter (fun x => !decide (x.1 = e.1)) = as :=
          List.filter_eq_self.mpr (fun x hx => by
            simp only [Bool.not_eq_true', decide_eq_false_iff_not]
            exact hfresh x hx)
        rw [hself]
      · have hane : ¬ a.1 = e.1 := fun hae => hfresh e hmem hae.symm
        rw [List.filter_cons_of_pos (by simpa using hane)]
        exact ((ih htail hmem).cons a).trans (List.Perm.swap e a _)

theorem find?_eq_some_of_mem_keysNodup {l : List (K × V)} {k : K} {w : V}
    (h : KeysNodup l) (hm : (k, w) ∈ l) :
    l.find? (fun e => decide (e.1 = k)) = some (k, w) := by
  induction l with
  | nil => cases hm
  | cons a as ih =>
      rcases keysNodup_cons.mp h with ⟨hfresh, htail⟩
      by_cases hak : a.1 = k
      · rw [List.find?_cons_of_pos _ (by simpa using hak)]
        rcases List.mem_cons.mp hm with heq | hmem
        · exact congrArg some heq.symm
        · exact absurd hak.symm (hfresh (k, w) hmem)
      · have hmem : (k, w) ∈ as := by
          rcases List.mem_cons.mp hm with heq | hmem
          · exact absurd (by rw [← heq]) hak
          · exact hmem
        rw [List.find?_cons_of_neg _ (by simpa using hak)]
        exact ih htail hmem

theorem countP_key_eq_one_of_mem {l : List (K × V)} {k : K} {w : V}
    (h : KeysNodup l) (hm : (k, w) ∈ l) :
    l.countP (fun e => decide (e.1 = k)) = 1 := by
  induction l with
  | nil => cases hm
  | cons a as ih =>
      rcases keysNodup_cons.mp h with ⟨hfresh, htail⟩
      by_cases hak : a.1 = k
      · rw [List.countP_cons_of_pos _ _ (by simpa using hak)]
        have hzero : as.countP (fun e => decide (e.1 = k)) = 0 := by
          rw [List.countP_eq_zero]
          intro x hx
          simp only [decide_eq_true_eq]
          exact fun hxk => hfresh x hx (hxk.trans hak.symm)
        rw [hzero]
      · have hmem : (k, w) ∈ as := by
          rcases List.mem_cons.mp hm with heq | hmem
          · exact absurd (by rw [← heq]) hak
          · exact hmem
        rw [List.countP_cons_of_neg _ _ (by simpa using hak)]
        exact ih htail hmem

theorem countP_key_filter_out (l : List (K × V)) (k : K) :
    (l.filter (fun e => !decide (e.1 = k))).countP (fun e => decide (e.1 = k)) = 0 := by
  rw [List.countP_eq_zero]
  intro x hx
  rcases List.mem_filter.mp hx with ⟨_, hxk⟩
  simpa using hxk

theorem keys_mem_iff_exists {l : List (K × V)} {k : K} :
    k ∈ l.map Prod.fst ↔ ∃ v, (k, v) ∈ l := by
  constructor
  · intro h
    rcases List.mem_map.mp h with ⟨e, he, hek⟩
    exact ⟨e.2, by rwa [show (k, e.2) = e from Prod.ext hek.symm rfl]⟩
  · rintro ⟨v, hv⟩
    exact List.mem_map.mpr ⟨(k, v), hv, rfl⟩

theorem perm_cons_filter_of_mem_key {l : List (K × V)} {k : K} {w : V}
    (h : KeysNodup l) (hm : (k, w) ∈ l) :
    l.Perm ((k, w) :: l.filter (fun x => !decide (x.1 = k))) :=
  perm_cons_filter_of_mem h hm

theorem wf_storage_keysNodup {c : LRUCache K V} (h : WF c) :
    KeysNodup c.kv_storage :=
  keysNodup_of_perm h.1 h.2.1

/-! Exact descriptions of each branch of `drop_before_insertion`, `insert`
and `get` on well-formed states. -/

theorem drop_before_insertion_collision {c : LRUCache K V} {k : K} {w : V}
    (h : WF c) (hm : (k, w) ∈ c.kv_storage) :
    drop_before_insertion c k =
      ({ kv_storage := c.kv_storage.filter (fun e => !decide (e.1 = k)),
         recency_queue := c.recency_queue.filter (fun e => !decide (e.1 = k)),
         max_len := c.max_len }, some (k, w)) := by
  have hnodupq := h.2.1
  have hnodups := wf_storage_keysNodup h
  have hfind := find?_eq_some_of_mem_keysNodup hnodups hm
  simp only [drop_before_insertion, drop_from_queue, hfind]
  rw [eraseP_eq_filter_of_keysNodup k hnodups, eraseP_eq_filter_of_keysNodup k hnodupq]

theorem drop_before_insertion_evict {c : LRUCache K V} {k : K} {f : K × V}
    {rest : List (K × V)} (h : WF c)
    (hfresh : ∀ e ∈ c.kv_storage, ¬ e.1 = k)
    (hfull : c.len = c.max_len) (hq : c.recency_queue = f :: rest) :
    drop_before_insertion c k =
      ({ kv_storage := c.kv_storage.filter (fun e => !decide (e.1 = f.1)),
         recency_queue := rest,
         max_len := c.max_len }, none) := by
  have hnone : c.kv_storage.find? (fun e => decide (e.1 = k)) = none :=
    List.find?_eq_none.mpr (fun x hx => by simpa using hfresh x hx)
  simp only [drop_before_insertion, hnone, hq, if_pos hfull]
  rw [eraseP_eq_filter_of_keysNodup f.1 (wf_storage_keysNodup h)]

theorem drop_before_insertion_fresh {c : LRUCache K V} {k : K}
    (hfresh : ∀ e ∈ c.kv_storage, ¬ e.1 = k) (hroom : ¬ c.len = c.max_len) :
    drop_before_insertion c k = (c, none) := by
  have hnone : c.kv_storage.find? (fun e => decide (e.1 = k)) = none :=
    List.find?_eq_none.mpr (fun x hx => by simpa using hfresh x hx)
  simp only [drop_before_insertion, hnone, if_neg hroom]

theorem insert_collision_eq {c : LRUCache K V} {k : K} {w : V} (v : V)
    (h : WF c) (hm : (k, w) ∈ c.kv_storage) :
    insert c k v =
      ({ kv_storage := (k, v) :: c.kv_storage.filter (fun e => !decide (e.1 = k)),
         recency_queue := c.recency_queue.filter (fun e => !decide (e.1 = k)) ++ [(k, v)],
         max_len := c.max_len }, some (k, w)) := by
  unfold insert
  rw [drop_before_insertion_collision h hm]
  rfl

theorem insert_evict_eq {c : LRUCache K V} {k : K} {f : K × V}
    {rest : List (K × V)} (v : V) (h : WF c)
    (hfresh : ∀ e ∈ c.kv_storage, ¬ e.1 = k)
    (hfull : c.len = c.max_len) (hq : c.recency_queue = f :: rest) :
    insert c k v =
      ({ kv_storage := (k, v) :: c.kv_storage.filter (fun e => !decide (e.1 = f.1)),
         recency_queue := rest ++ [(k, v)],
         max_len := c.max_len }, none) := by
  unfold insert
  rw [drop_before_insertion_evict h hfresh hfull hq]
  rfl

theorem insert_fresh_eq {c : LRUCache K V} {k : K} (v : V)
    (hfresh : ∀ e ∈ c.kv_storage, ¬ e.1 = k) (hroom : ¬ c.len = c.max_len) :
    insert c k v =
      ({ kv_storage := (k, v) :: c.kv_storage,
         recency_queue := c.recency_queue ++ [(k, v)],
         max_len := c.max_len }, none) := by
  unfold insert
  rw [drop_before_insertion_fresh hfresh hroom]
  rfl

theorem get_hit_eq {c : LRUCache K V} {k : K} {w : V} (h : WF c)
    (hm : (k, w) ∈ c.kv_storage) :
    get c k =
      ({ kv_storage := c.kv_storage,
         recency_queue := c.recency_queue.filter (fun e => !decide (e.1 = k)) ++ [(k, w)],
         max_len := c.max_len }, some w) := by
  have hfind := find?_eq_some_of_mem_keysNodup (wf_storage_keysNodup h) hm
  simp only [get, hfind, drop_from_queue]
  rw [eraseP_eq_filter_of_keysNodup k h.2.1]

theorem get_miss_eq {c : LRUCache K V} {k : K}
    (hfresh : ∀ e ∈ c.kv_storage, ¬ e.1 = k) :
    get c k = (c, none) := by
  have hnone : c.kv_storage.find? (fun e => decide (e.1 = k)) = none :=
    List.find?_eq_none.mpr (fun x hx => by simpa using hfresh x hx)
  simp only [get, hnone]

/-! Preservation of the invariant `WF` by every public operation. -/

theorem exists_mem_of_not_fresh {c : LRUCache K V} {k : K}
    (hk : ¬ ∀ e ∈ c.kv_storage, ¬ e.1 = k) : ∃ w, (k, w) ∈ c.kv_storage := by
  push_neg at hk
  rcases hk with ⟨e, he, hek⟩
  exact ⟨e.2, by rwa [show (k, e.2) = e from Prod.ext hek.symm rfl]⟩

theorem wf_insert {c : LRUCache K V} (k : K) (v : V) (h : WF c) :
    WF (insert c k v).1 := by
  obtain ⟨hperm, hnodup, hlen, hpos⟩ := h
  by_cases hk : ∀ e ∈ c.kv_storage, ¬ e.1 = k
  · by_cases hfull : c.len = c.max_len
    · have hql : c.recency_queue.length = c.kv_storage.length := hperm.length_eq
      cases hq : c.recency_queue with
      | nil =>
          exfalso
          rw [hq] at hql
          have hfull' : c.kv_storage.length = c.max_len := hfull
          simp only [List.length_nil] at hql
          omega
      | cons f rest =>
          rw [insert_evict_eq v ⟨hperm, hnodup, hlen, hpos⟩ hk hfull hq]
          have hqs : (f :: rest).Perm c.kv_storage := hq ▸ hperm
          have hnodupfr : KeysNodup (f :: rest) := hq ▸ hnodup
          rcases keysNodup_cons.mp hnodupfr with ⟨hfr, hnoduprest⟩
          have hrest : rest.filter (fun e => !decide (e.1 = f.1)) = rest :=
            List.filter_eq_self.mpr (fun x hx => by simpa using hfr x hx)
          have hsf := hqs.symm.filter (fun e => !decide (e.1 = f.1))
          rw [List.filter_cons_of_neg (by simp), hrest] at hsf
          refine ⟨?_, ?_, ?_, hpos⟩
          · exact (List.perm_append_singleton _ _).trans (hsf.symm.cons _)
          · apply keysNodup_append_singleton hnoduprest
            intro x hx
            have hxs : x ∈ c.kv_storage := hqs.subset (List.mem_cons_of_mem f hx)
            exact hk x hxs
          · have h1 : rest.length + 1 = c.kv_storage.length := by
              rw [hq] at hql
              simpa using hql
            have h2 := hsf.length_eq
            simp only [List.length_cons]
            omega
    · rw [insert_fresh_eq v hk hfull]
      refine ⟨?_, ?_, ?_, hpos⟩
      · exact (List.perm_append_singleton _ _).trans (hperm.cons _)
      · exact keysNodup_append_singleton hnodup (fun x hx => hk x (hperm.subset hx))
      · have hld : c.len = c.kv_storage.length := rfl
        simp only [List.length_cons]
        omega
  · obtain ⟨w, hm⟩ := exists_mem_of_not_fresh hk
    rw [insert_collision_eq v ⟨hperm, hnodup, hlen, hpos⟩ hm]
    have hnodups := keysNodup_of_perm hperm hnodup
    have hsp := perm_cons_filter_of_mem_key hnodups hm
    refine ⟨?_, ?_, ?_, hpos⟩
    · exact (List.perm_append_singleton _ _).trans ((hperm.filter _).cons _)
    · apply keysNodup_append_singleton (keysNodup_filter _ hnodup)
      intro x hx
      have := (List.mem_filter.mp hx).2
      simpa using this
    · have hl := hsp.length_eq
      simp only [List.length_cons] at hl ⊢
      omega

theorem wf_get {c : LRUCache K V} (k : K) (h : WF c) : WF (get c k).1 := by
  obtain ⟨hperm, hnodup, hlen, hpos⟩ := h
  by_cases hk : ∀ e ∈ c.kv_storage, ¬ e.1 = k
  · rw [get_miss_eq hk]
    exact ⟨hperm, hnodup, hlen, hpos⟩
  · obtain ⟨w, hm⟩ := exists_mem_of_not_fresh hk
    rw [get_hit_eq ⟨hperm, hnodup, hlen, hpos⟩ hm]
    have hmq : (k, w) ∈ c.recency_queue := hperm.mem_iff.mpr hm
    have hqp := perm_cons_filter_of_mem_key hnodup hmq
    refine ⟨?_, ?_, hlen, hpos⟩
    · exact (List.perm_append_singleton _ _).trans (hqp.symm.trans hperm)
    · exact keysNodup_of_perm (List.perm_append_singleton _ _).symm
        (keysNodup_of_perm hqp hnodup)

theorem storage_erase_head_perm {c : LRUCache K V} {f : K × V}
    {rest : List (K × V)} (h : WF c) (hq : c.recency_queue = f :: rest) :
    (c.kv_storage.eraseP (fun e => decide (e.1 = f.1))).Perm rest := by
  obtain ⟨hperm, hnodup, _, _⟩ := h
  have hnodups := keysNodup_of_perm hperm hnodup
  rw [eraseP_eq_filter_of_keysNodup _ hnodups]
  have hqs : (f :: rest).Perm c.kv_storage := hq ▸ hperm
  have hnodupfr : KeysNodup (f :: rest) := hq ▸ hnodup
  rcases keysNodup_cons.mp hnodupfr with ⟨hfr, _⟩
  have hrest : rest.filter (fun e => !decide (e.1 = f.1)) = rest :=
    List.filter_eq_self.mpr (fun x hx => by simpa using hfr x hx)
  have hsf := hqs.symm.filter (fun e => !decide (e.1 = f.1))
  rw [List.filter_cons_of_neg (by simp), hrest] at hsf
  exact hsf

theorem wf_evict_step {c : LRUCache K V} {f : K × V} {rest : List (K × V)}
    (h : WF c) (hq : c.recency_queue = f :: rest) :
    WF ({ kv_storage := c.kv_storage.eraseP (fun e => decide (e.1 = f.1)),
          recency_queue := rest,
          max_len := c.max_len } : LRUCache K V) := by
  have hsp := storage_erase_head_perm h hq
  obtain ⟨hperm, hnodup, hlen, hpos⟩ := h
  have hql : c.recency_queue.length = c.kv_storage.length := hperm.length_eq
  refine ⟨hsp.symm, (keysNodup_cons.mp (hq ▸ hnodup)).2, ?_, hpos⟩
  have h1 := hsp.length_eq
  have h2 : rest.length + 1 = c.kv_storage.length := by
    rw [hq] at hql
    simpa using hql
  show (c.kv_storage.eraseP (fun e => decide (e.1 = f.1))).length ≤ c.max_len
  omega

theorem resizeLoop_spec (m : Nat) (c : LRUCache K V) (h : WF c) :
    WF (resizeLoop m c).1 ∧
      (resizeLoop m c).1.kv_storage.length = c.kv_storage.length - m ∧
      (resizeLoop m c).1.max_len = c.max_len := by
  induction m generalizing c with
  | zero =>
      refine ⟨h, ?_, rfl⟩
      show c.kv_storage.length = c.kv_storage.length - 0
      omega
  | succ m ih =>
      cases hq : c.recency_queue with
      | nil =>
          have hempty : c.kv_storage.length = 0 := by
            have := h.1.length_eq
            rw [hq] at this
            simpa using this.symm
          simp only [resizeLoop, hq]
          exact ⟨h, by omega, by simp⟩
      | cons f rest =>
          have hstep := wf_evict_step h hq
          have hsp := storage_erase_head_perm h hq
          have hql : c.recency_queue.length = c.kv_storage.length := h.1.length_eq
          have h2 : rest.length + 1 = c.kv_storage.length := by
            rw [hq] at hql
            simpa using hql
          obtain ⟨hwf, hl, hm⟩ := ih _ hstep
          simp only [resizeLoop, hq]
          refine ⟨hwf, ?_, hm⟩
          simp only at hl
          rw [hl]
          have h1 := hsp.length_eq
          simp only at h1
          omega

theorem wf_resize {c : LRUCache K V} (n : Nat) (hn : 0 < n) (h : WF c) :
    WF (resize c n).1 := by
  by_cases hge : c.max_len ≤ n
  · simp only [resize, if_pos hge]
    exact ⟨h.1, h.2.1, le_trans h.2.2.1 hge, hn⟩
  · by_cases hemp : c.kv_storage.isEmpty
    · simp only [resize, if_neg hge, if_pos hemp]
      exact h
    · simp only [resize, if_neg hge, if_neg hemp]
      obtain ⟨hwf, hl, hm⟩ := resizeLoop_spec (c.len - n) c h
      refine ⟨hwf.1, hwf.2.1, ?_, hn⟩
      have hld : c.len = c.kv_storage.length := rfl
      simp only
      rw [hl]
      omega

theorem reachable_wf {c : LRUCache K V} (h : Reachable c) : WF c := by
  induction h with
  | with_max_len n hn =>
      exact ⟨List.Perm.refl _, by simp [KeysNodup, with_max_len], Nat.zero_le _, hn⟩
  | insert c k v _ ih => exact wf_insert k v ih
  | get c k _ ih => exact wf_get k ih
  | resize c n hn _ ih => exact wf_resize n hn ih

/-! The claims. -/

/-- Claim C1: for every reachable state (any sequence of
`with_max_len` / `insert` / `get` / `resize` from construction),
`len() <= max_len()`, and the set of keys in the lookup index equals the
set of keys in the recency sequence. -/
theorem claim_reachable_invariant (c : LRUCache K V) (k : K)
    (h : Reachable c) :
    c.len ≤ c.max_len ∧
      (k ∈ c.kv_storage.map Prod.fst ↔ k ∈ c.recency_queue.map Prod.fst) := by
  have hwf := reachable_wf h
  exact ⟨hwf.2.2.1, ((hwf.1.map Prod.fst).mem_iff).symm⟩

/-- Claim C2: inserting a key that is not present returns `None` and keeps
`len() <= max_len()`; when the cache is full (with the recency queue
decomposed as `f :: rest`, `f` being the least-recently-used front entry),
exactly `f` is dropped from both containers, the new key goes to the
most-recently-used back position, and `len()` is unchanged; when there is
room, the queue is only extended at the back and `len()` grows by one. -/
theorem claim_insert_new_key (c : LRUCache K V) (k : K) (v : V) (f : K × V)
    (rest : List (K × V)) (h : WF c)
    (hfresh : ∀ e ∈ c.kv_storage, ¬ e.1 = k) :
    (insert c k v).2 = none ∧
      (insert c k v).1.len ≤ (insert c k v).1.max_len ∧
      (c.len = c.max_len → c.recency_queue = f :: rest →
        (insert c k v).1.recency_queue = rest ++ [(k, v)] ∧
        (insert c k v).1.kv_storage.Perm ((k, v) :: rest) ∧
        (insert c k v).1.len = c.len) ∧
      (c.len < c.max_len →
        (insert c k v).1.recency_queue = c.recency_queue ++ [(k, v)] ∧
        (insert c k v).1.len = c.len + 1) := by
  have hbound := (wf_insert k v h).2.2.1
  refine ⟨?_, hbound, ?_, ?_⟩
  · by_cases hfull : c.len = c.max_len
    · cases hq' : c.recency_queue with
      | nil =>
          exfalso
          have hql := h.1.length_eq
          rw [hq'] at hql
          have hld : c.len = c.kv_storage.length := rfl
          have hpos := h.2.2.2
          simp only [List.length_nil] at hql
          omega
      | cons f' rest' => rw [insert_evict_eq v h hfresh hfull hq']
    · rw [insert_fresh_eq v hfresh hfull]
  · intro hfull hq
    have heq := insert_evict_eq v h hfresh hfull hq
    have hsp := storage_erase_head_perm h hq
    rw [eraseP_eq_filter_of_keysNodup _ (wf_storage_keysNodup h)] at hsp
    have hql : c.recency_queue.length = c.kv_storage.length := h.1.length_eq
    have h2 : rest.length + 1 = c.kv_storage.length := by
      rw [hq] at hql
      simpa using hql
    refine ⟨by rw [heq], by rw [heq]; exact hsp.cons _, ?_⟩
    rw [heq]
    show ((k, v) :: c.kv_storage.filter (fun e => !decide (e.1 = f.1))).length = c.len
    have h1 := hsp.length_eq
    have hld : c.len = c.kv_storage.length := rfl
    simp only [List.length_cons]
    omega
  · intro hlt
    have hne : ¬ c.len = c.max_len := Nat.ne_of_lt hlt
    rw [insert_fresh_eq v hfresh hne]
    refine ⟨rfl, ?_⟩
    show ((k, v) :: c.kv_storage).length = c.len + 1
    simp [len]

/-- Claim C3: inserting an already-present key returns the previously
stored pair, leaves `len()` unchanged, re-queues the key at the
most-recently-used back position, and evicts no other entry (holds with no
assumption on occupancy, so also at full capacity). -/
theorem claim_insert_collision (c : LRUCache K V) (k : K) (w v : V)
    (h : WF c) (hm : (k, w) ∈ c.kv_storage) :
    (insert c k v).2 = some (k, w) ∧
      (insert c k v).1.len = c.len ∧
      (insert c k v).1.recency_queue =
        c.recency_queue.filter (fun e => !decide (e.1 = k)) ++ [(k, v)] ∧
      (∀ e ∈ c.kv_storage, ¬ e.1 = k → e ∈ (insert c k v).1.kv_storage) := by
  have heq := insert_collision_eq v h hm
  have hnodups := wf_storage_keysNodup h
  have hsp := perm_cons_filter_of_mem_key hnodups hm
  refine ⟨by rw [heq], ?_, by rw [heq], ?_⟩
  · rw [heq]
    show ((k, v) :: c.kv_storage.filter (fun e => !decide (e.1 = k))).length = c.len
    have h1 := hsp.length_eq
    have hld : c.len = c.kv_storage.length := rfl
    simp only [List.length_cons] at h1 ⊢
    omega
  · intro e he hek
    rw [heq]
    show e ∈ (k, v) :: c.kv_storage.filter (fun x => !decide (x.1 = k))
    exact List.mem_cons_of_mem _ (List.mem_filter.mpr ⟨he, by simpa using hek⟩)

/-- Claim C4: `get` on a present key returns its value and moves the entry
to the most-recently-used back of the recency queue, touching nothing else;
`get` on an absent key returns `None` and changes nothing. -/
theorem claim_get (c : LRUCache K V) (k : K) (w : V) (h : WF c) :
    ((k, w) ∈ c.kv_storage →
      get c k =
        ({ kv_storage := c.kv_storage,
           recency_queue :=
             c.recency_queue.filter (fun e => !decide (e.1 = k)) ++ [(k, w)],
           max_len := c.max_len }, some w)) ∧
      ((∀ e ∈ c.kv_storage, ¬ e.1 = k) → get c k = (c, none)) :=
  ⟨fun hm => get_hit_eq h hm, fun hfresh => get_miss_eq hfresh⟩

/-- Claim C5 (divergence witness): `resize` on an empty cache with a
smaller new capacity returns no evictions but also leaves `max_len()` at
its old value instead of lowering it to the requested capacity. -/
theorem claim_resize_shrink_empty_divergence :
    (resize (with_max_len 3 : LRUCache Nat Nat) 1).2 = [] ∧
      (resize (with_max_len 3 : LRUCache Nat Nat) 1).1.max_len = 3 ∧
      ¬ (resize (with_max_len 3 : LRUCache Nat Nat) 1).1.max_len = 1 := by
  decide

/-- Claim C6: `resize(n)` with `n >= max_len()` evicts nothing, returns the
empty collection, leaves both containers and `len()` unchanged, and sets
`max_len()` to `n`. -/
theorem claim_resize_grow (c : LRUCache K V) (n : Nat)
    (hn : c.max_len ≤ n) :
    (resize c n).2 = [] ∧
      (resize c n).1.kv_storage = c.kv_storage ∧
      (resize c n).1.recency_queue = c.recency_queue ∧
      (resize c n).1.len = c.len ∧
      (resize c n).1.max_len = n := by
  have heq : resize c n = ({ c with max_len := n }, []) := by
    unfold resize
    rw [if_pos hn]
  rw [heq]
  exact ⟨rfl, rfl, rfl, rfl, rfl⟩

/-- Claim C7: construction rejects zero capacity at the `NonZeroU32`
boundary (`NonZeroU32::new 0` is `None`, there is no clamping), accepts any
positive capacity, and produces an empty cache whose `max_len()` is exactly
the given capacity. -/
theorem claim_with_max_len (n : Nat) (hn : 0 < n) :
    nonZeroU32New 0 = none ∧
      nonZeroU32New n = some n ∧
      (with_max_len n : LRUCache K V).len = 0 ∧
      (with_max_len n : LRUCache K V).max_len = n := by
  refine ⟨rfl, ?_, rfl, rfl⟩
  simp [nonZeroU32New, Nat.pos_iff_ne_zero.mp hn]

/-- Claim C8: on every reachable state the node of a stored key is held by
exactly the two containers (`Rc` strong count 2); when
`drop_before_insertion` hands an entry back for decomposition, and when an
eviction step pops the queue front, the handed-back node has container
count 0 (strong count 1 from the single local handle), so the share-count
assertions in `drop_from_queue`, `into_pair`, `insert` and `resize` hold. -/
theorem claim_share_count (c : LRUCache K V) (k : K) (w : V) (p f : K × V)
    (rest : List (K × V)) (h : Reachable c) :
    ((k, w) ∈ c.kv_storage → shareCount c k = 2) ∧
      ((drop_before_insertion c k).2 = some p →
        shareCount (drop_before_insertion c k).1 p.1 = 0) ∧
      (c.recency_queue = f :: rest →
        shareCount
          ({ kv_storage := c.kv_storage.eraseP (fun e => decide (e.1 = f.1)),
             recency_queue := rest,
             max_len := c.max_len } : LRUCache K V) f.1 = 0) := by
  have hwf := reachable_wf h
  have hperm := hwf.1
  have hnodup := hwf.2.1
  have hnodups := keysNodup_of_perm hperm hnodup
  refine ⟨?_, ?_, ?_⟩
  · intro hm
    have hs := countP_key_eq_one_of_mem hnodups hm
    have hqm : (k, w) ∈ c.recency_queue := hperm.mem_iff.mpr hm
    have hqc := countP_key_eq_one_of_mem hnodup hqm
    simp [shareCount, hs, hqc]
  · intro hsome
    by_cases hk : ∀ e ∈ c.kv_storage, ¬ e.1 = k
    · exfalso
      by_cases hfull : c.len = c.max_len
      · cases hq2 : c.recency_queue with
        | nil =>
            have hql := hperm.length_eq
            rw [hq2] at hql
            have hld : c.len = c.kv_storage.length := rfl
            have hpos := hwf.2.2.2
            simp only [List.length_nil] at hql
            omega
        | cons f' rest' =>
            rw [drop_before_insertion_evict hwf hk hfull hq2] at hsome
            simp at hsome
      · rw [drop_before_insertion_fresh hk hfull] at hsome
        simp at hsome
    · obtain ⟨w', hm⟩ := exists_mem_of_not_fresh hk
      have heq := drop_before_insertion_collision hwf hm
      rw [heq] at hsome
      simp only at hsome
      have hp : (k, w') = p := Option.some_inj.mp hsome
      rw [heq, ← hp]
      dsimp only
      simp [shareCount, countP_key_filter_out]
  · intro hq
    have hnfr := keysNodup_cons.mp (hq ▸ hnodup)
    have hs0 : (c.kv_storage.eraseP
        (fun e => decide (e.1 = f.1))).countP (fun e => decide (e.1 = f.1)) = 0 := by
      rw [eraseP_eq_filter_of_keysNodup _ hnodups]
      exact countP_key_filter_out _ _
    have hr0 : rest.countP (fun e => decide (e.1 = f.1)) = 0 := by
      rw [List.countP_eq_zero]
      intro x hx
      simpa using hnfr.1 x hx
    simp [shareCount, hs0, hr0]

/-- Claim C9: `iter()` yields exactly the currently stored pairs, read off
the lookup index alone; as a plain observer it performs no mutation, so
repeated calls agree and the recency queue (which holds the same entries,
up to order) is untouched. -/
theorem claim_iter (c : LRUCache K V) (p : K × V) (h : WF c) :
    (p ∈ iter c ↔ p ∈ c.kv_storage) ∧ (iter c).Perm c.recency_queue := by
  have hid : iter c = c.kv_storage := by
    simp [iter]
  constructor
  · rw [hid]
  · rw [hid]
    exact h.1.symm

/-- Claim C10: the no-argument constructors `new()` and
`Default::default()` agree and build an empty cache with capacity exactly
1. -/
theorem claim_new_default :
    (new : LRUCache K V).len = 0 ∧ (new : LRUCache K V).max_len = 1 ∧
      (defaultCache : LRUCache K V).len = 0 ∧
      (defaultCache : LRUCache K V).max_len = 1 ∧
      (new : LRUCache K V) = defaultCache :=
  ⟨rfl, rfl, rfl, rfl, rfl⟩

end LRUCache

namespace LRUCache

/-- Concrete capacity-2 cache holding keys 1 and 2 (key 1 least recently
used), built by the public operations; used by the witnesses below. -/
abbrev sampleCache : LRUCache Nat Nat :=
  (LRUCache.insert (LRUCache.insert (LRUCache.with_max_len 2) 1 10).1 2 20).1

/-- Witness for C1 at a concrete reachable cache and key. -/
theorem claim_reachable_invariant_witness :
    sampleCache.len ≤ sampleCache.max_len ∧
      (1 ∈ sampleCache.kv_storage.map Prod.fst ↔
        1 ∈ sampleCache.recency_queue.map Prod.fst) :=
  claim_reachable_invariant sampleCache 1
    (Reachable.insert _ 2 20 (Reachable.insert _ 1 10
      (Reachable.with_max_len 2 (by decide))))

/-- Witness for C2: inserting fresh key 3 into the full sample cache. -/
theorem claim_insert_new_key_witness :
    (insert sampleCache 3 30).2 = none ∧
      (insert sampleCache 3 30).1.len ≤ (insert sampleCache 3 30).1.max_len ∧
      (insert sampleCache 3 30).1.recency_queue = [(2, 20)] ++ [(3, 30)] ∧
      (insert sampleCache 3 30).1.kv_storage.Perm ((3, 30) :: [(2, 20)]) ∧
      (insert sampleCache 3 30).1.len = sampleCache.len := by
  have h := claim_insert_new_key sampleCache 3 30 (1, 10) [(2, 20)]
    (by decide) (by decide)
  have h3 := h.2.2.1 (by decide) (by decide)
  exact ⟨h.1, h.2.1, h3.1, h3.2.1, h3.2.2⟩

/-- Witness for C3: re-inserting the present key 1 into the sample cache. -/
theorem claim_insert_collision_witness :
    (insert sampleCache 1 99).2 = some (1, 10) ∧
      (insert sampleCache 1 99).1.len = sampleCache.len ∧
      (insert sampleCache 1 99).1.recency_queue =
        sampleCache.recency_queue.filter (fun e => !decide (e.1 = 1)) ++ [(1, 99)] ∧
      (2, 20) ∈ (insert sampleCache 1 99).1.kv_storage := by
  have h := claim_insert_collision sampleCache 1 10 99 (by decide) (by decide)
  exact ⟨h.1, h.2.1, h.2.2.1, h.2.2.2 (2, 20) (by decide) (by decide)⟩

/-- Witness for C4: a hit on key 1 and a miss on key 5. -/
theorem claim_get_witness :
    get sampleCache 1 =
        ({ kv_storage := sampleCache.kv_storage,
           recency_queue :=
             sampleCache.recency_queue.filter (fun e => !decide (e.1 = 1)) ++ [(1, 10)],
           max_len := sampleCache.max_len }, some 10) ∧
      get sampleCache 5 = (sampleCache, none) := by
  have h1 := claim_get sampleCache 1 10 (by decide)
  have h2 := claim_get sampleCache 5 10 (by decide)
  exact ⟨h1.1 (by decide), h2.2 (by decide)⟩

/-- Witness for C6: growing the sample cache from capacity 2 to 5. -/
theorem claim_resize_grow_witness :
    (resize sampleCache 5).2 = [] ∧
      (resize sampleCache 5).1.kv_storage = sampleCache.kv_storage ∧
      (resize sampleCache 5).1.recency_queue = sampleCache.recency_queue ∧
      (resize sampleCache 5).1.len = sampleCache.len ∧
      (resize sampleCache 5).1.max_len = 5 :=
  claim_resize_grow sampleCache 5 (by decide)

/-- Witness for C7 at capacity 3. -/
theorem claim_with_max_len_witness :
    nonZeroU32New 0 = none ∧ nonZeroU32New 3 = some 3 ∧
      (with_max_len 3 : LRUCache Nat Nat).len = 0 ∧
      (with_max_len 3 : LRUCache Nat Nat).max_len = 3 :=
  claim_with_max_len 3 (by decide)

/-- Witness for C8 on the sample cache: stored key 1 has container count 2,
and both extraction sites leave container count 0. -/
theorem claim_share_count_witness :
    shareCount sampleCache 1 = 2 ∧
      shareCount (drop_before_insertion sampleCache 1).1
        ((1, 10) : Nat × Nat).1 = 0 ∧
      shareCount
        ({ kv_storage := sampleCache.kv_storage.eraseP
             (fun e => decide (e.1 = ((1, 10) : Nat × Nat).1)),
           recency_queue := [(2, 20)],
           max_len := sampleCache.max_len } : LRUCache Nat Nat)
        ((1, 10) : Nat × Nat).1 = 0 := by
  have h := claim_share_count sampleCache 1 10 (1, 10) (1, 10) [(2, 20)]
    (Reachable.insert _ 2 20 (Reachable.insert _ 1 10
      (Reachable.with_max_len 2 (by decide))))
  exact ⟨h.1 (by decide), h.2.1 (by decide), h.2.2 (by decide)⟩

/-- Witness for C9 on the sample cache at the pair (1, 10). -/
theorem claim_iter_witness :
    ((1, 10) ∈ iter sampleCache ↔ (1, 10) ∈ sampleCache.kv_storage) ∧
      (iter sampleCache).Perm sampleCache.recency_queue :=
  claim_iter sampleCache (1, 10) (by decide)

end LRUCache
